import Mathlib

/-!
Verification development for the mlxmate codebase indexing and retrieval engine.

The definitions below are a shallow embedding of the Python sources:
  - `src/core/codebase.py` (class CodebaseAnalyzer): directory walk, per-file
    record construction, symbol/comment extraction, style profiling, semantic
    and directory search, complexity analysis;
  - `src/utils/search.py`  (class SemanticSearch): its own index state, keyword
    inverted index, update/remove operations and full-text search bonuses.

Modelling conventions:
  - Python strings are modelled as `String` at the data level and `List Char`
    in all computations (Lean's `String` primitives do not reduce in the
    kernel); ASCII semantics of `str.lower`, `\w`, `\s` are used, matching the
    ASCII-only inputs of all concrete theorems.
  - Python floats in score accumulation (weights 0.3/0.4/0.2/0.1 and the
    threshold 30) are modelled exactly, scaled by 10 to integers (3/4/2/1,
    threshold 300), following the spec's exact 0-100 scale semantics.
  - Recursions that are not structural are given explicit fuel so that every
    definition evaluates in the kernel; theorems quantify over the fuel.
  - `dict` is an insertion-ordered association list, `defaultdict(list)`
    likewise; `list.sort` / `sorted` is a stable sort, modelled by a stable
    insertion sort.
-/

set_option maxRecDepth 10000

/-! ### Character classes (ASCII model of Python `str.lower`, `\w`, `\s`) -/

/-- ASCII lower-casing of one character, as Python `str.lower` acts on ASCII. -/
def lowChar (c : Char) : Char :=
  if 65 ≤ c.toNat ∧ c.toNat ≤ 90 then Char.ofNat (c.toNat + 32) else c

/-- Lower-case a character list. -/
def lowList (cs : List Char) : List Char := cs.map lowChar

/-- Python regex `\w` (ASCII): letters, digits, underscore. -/
def isWordChar (c : Char) : Bool :=
  (Nat.ble 97 c.toNat && Nat.ble c.toNat 122) ||
  (Nat.ble 65 c.toNat && Nat.ble c.toNat 90) ||
  (Nat.ble 48 c.toNat && Nat.ble c.toNat 57) ||
  (c.toNat == 95)

/-- Python regex `\s`: space, tab, newline, carriage return, form feed, vertical tab. -/
def isSpaceChar (c : Char) : Bool :=
  (c.toNat == 32) || (c.toNat == 9) || (c.toNat == 10) ||
  (c.toNat == 13) || (c.toNat == 12) || (c.toNat == 11)

/-- First character of an identifier (Python regex `[a-zA-Z_]`). -/
def isIdentStart (c : Char) : Bool :=
  (Nat.ble 97 c.toNat && Nat.ble c.toNat 122) ||
  (Nat.ble 65 c.toNat && Nat.ble c.toNat 90) ||
  (c.toNat == 95)

/-- Lower-case ASCII letter test. -/
def isLowerAlpha (c : Char) : Bool :=
  Nat.ble 97 c.toNat && Nat.ble c.toNat 122

/-! ### Basic list/string helpers -/

/-- Does `pre` lead `cs` (Python `str.startswith` on the data)? -/
def leadMatch : List Char → List Char → Bool
  | [], _ => true
  | _ :: _, [] => false
  | a :: as, b :: bs => (a == b) && leadMatch as bs

/-- Contiguous-substring test, Python's `needle in hay`. -/
def hasSub (needle : List Char) : List Char → Bool
  | [] => needle.isEmpty
  | c :: cs => leadMatch needle (c :: cs) || hasSub needle cs

/-- Lexicographic comparison by code points, Python's `str.__le__`. -/
def lexLe : List Char → List Char → Bool
  | [], _ => true
  | _ :: _, [] => false
  | a :: as, b :: bs =>
    if a.toNat < b.toNat then true
    else if b.toNat < a.toNat then false
    else lexLe as bs

/-- Python `content.split(sep)` for a one-character separator. -/
def splitOnChar (sep : Char) : List Char → List (List Char)
  | [] => [[]]
  | c :: cs =>
    match splitOnChar sep cs with
    | [] => [[]]
    | r :: rs => if c == sep then [] :: r :: rs else (c :: r) :: rs

/-- Python `line.split("//")`: split on a double slash, non-overlapping, left to right. -/
def splitOnDSlash : List Char → List (List Char)
  | [] => [[]]
  | '/' :: '/' :: cs =>
    match splitOnDSlash cs with
    | [] => [[], []]
    | rs => [] :: rs
  | c :: cs =>
    match splitOnDSlash cs with
    | [] => [[c]]
    | r :: rs => (c :: r) :: rs

/-- Python `str.strip()`: drop whitespace from both ends. -/
def stripChars (cs : List Char) : List Char :=
  ((cs.dropWhile isSpaceChar).reverse.dropWhile isSpaceChar).reverse

/-- Maximal `\w` runs of a text, keeping only runs that start like an
identifier: exactly the matches of Python `\b[a-zA-Z_][a-zA-Z0-9_]*\b`
(a run starting with a digit has no match inside it, since every later
start position is preceded by a word character). -/
def wordRunsAux : List Char → List Char → List (List Char)
  | [], cur => if cur.isEmpty then [] else [cur.reverse]
  | c :: cs, cur =>
    if isWordChar c then wordRunsAux cs (c :: cur)
    else if cur.isEmpty then wordRunsAux cs [] else cur.reverse :: wordRunsAux cs []

/-- All maximal word-character runs of a text. -/
def wordRuns (cs : List Char) : List (List Char) := wordRunsAux cs []

/-- Identifier tokens of a text (source: `re.findall(r'\b[a-zA-Z_][a-zA-Z0-9_]*\b', content)`). -/
def identWords (cs : List Char) : List (List Char) :=
  (wordRuns cs).filter fun r =>
    match r with
    | c :: _ => isIdentStart c
    | [] => false

/-! ### Paths -/

/-- Split a path into `/`-separated components. -/
def pathParts (p : String) : List String :=
  (splitOnChar '/' p.data).map List.asString

/-- Join character-level path components with `/`. -/
def joinParts : List (List Char) → List Char
  | [] => []
  | [p] => p
  | p :: ps => p ++ '/' :: joinParts ps

/-- Join directory components and a file name with `/`, as the relative paths
produced by `Path(root) / filename` and `relative_to(root_path)` print. -/
def joinPath (dirs : List String) (fname : String) : String :=
  (joinParts ((dirs ++ [fname]).map (·.data))).asString

/-- Last `/`-component of a path: `str(Path(p).relative_to(Path(p).parent))`. -/
def baseName (p : String) : String :=
  match (splitOnChar '/' p.data).reverse with
  | [] => p
  | last :: _ => last.asString

/-- `pathlib.Path(name).suffix`: the final dot segment, empty for dotfiles
and for a trailing dot (source rule: `name[i:]` when `0 < i < len(name)-1`
for `i = name.rfind('.')`). -/
def pathSuffix (name : String) : String :=
  let cs := name.data
  let dotIdxs := (List.range cs.length).filter fun i => (cs.drop i).headD ' ' == '.'
  match dotIdxs.reverse with
  | [] => ""
  | i :: _ =>
    if 0 < i ∧ i + 1 < cs.length then (cs.drop i).asString else ""

/-! ### Edit-distance similarity.
Modelled from the spec: the source calls the external library routine
`fuzzywuzzy.fuzz.partial_ratio`, which is not part of this repository.  The
spec (section 4.6 and the design note on fuzzy matching) fixes its semantics:
the partial ratio of the shorter string against all equal-length windows of
the longer string, each window scored by a standard edit-distance-derived
similarity on the 0-100 scale. -/

/-- Levenshtein distance with explicit fuel (fuel `|a| + |b|` always suffices). -/
def levF : Nat → List Char → List Char → Nat
  | 0, xs, ys => xs.length + ys.length
  | _ + 1, [], ys => ys.length
  | _ + 1, _ :: xs, [] => xs.length + 1
  | f + 1, x :: xs, y :: ys =>
    if x == y then levF f xs ys
    else 1 + min (levF f xs ys) (min (levF f (x :: xs) ys) (levF f xs (y :: ys)))

/-- Levenshtein distance between two character lists. -/
def levDist (xs ys : List Char) : Nat := levF (xs.length + ys.length) xs ys

/-- Edit-distance similarity of two strings on the 0-100 scale:
`100 * ((|a| + |b|) - lev(a,b)) / (|a| + |b|)`, with 100 for two empty strings. -/
def simPct (a b : List Char) : Nat :=
  if a.length + b.length = 0 then 100
  else (100 * ((a.length + b.length) - levDist a b)) / (a.length + b.length)

/-- All windows of length `n` of `l` (for `n ≤ |l|` these are the contiguous slices). -/
def winList (n : Nat) (l : List Char) : List (List Char) :=
  (List.range (l.length - n + 1)).map fun i => (l.drop i).take n

/-- Maximum of a list of naturals. -/
def listMax (l : List Nat) : Nat := l.foldl max 0

/-- Partial-ratio similarity: best simPct of the shorter string against the
equal-length windows of the longer string. -/
def partScore (a b : List Char) : Nat :=
  let s := if a.length ≤ b.length then a else b
  let l := if a.length ≤ b.length then b else a
  listMax ((winList s.length l).map (simPct s))

/-! ### Stable sort (Python `list.sort` / `sorted` are stable). -/

/-- Insert into a sorted list after all elements it does not have to precede
(keeps the original relative order of equal keys, like Python's stable sort). -/
def insSorted (le : α → α → Bool) (x : α) : List α → List α
  | [] => [x]
  | y :: ys => if le x y then x :: y :: ys else y :: insSorted le x ys

/-- Stable insertion sort. -/
def stableSort (le : α → α → Bool) : List α → List α
  | [] => []
  | x :: xs => insSorted le x (stableSort le xs)

/-! ### Regex matchers.
Each Python regex used by the sources is emulated by a hand-written matcher
on `List Char` that tries to match at the head of its input and returns the
captured group together with the total matched length.  Greedy maximal-munch
is used wherever it is equivalent to the regex's backtracking semantics:
`\w+`, `\s+`/`\s*` followed by a literal outside the class cannot benefit
from giving back characters (the next character after a shortened run is
still in the class, so the following literal cannot match); `[^X]*` followed
by the literal `X` stops exactly at the first `X`.  The two patterns that
contain a genuinely backtracking `.*` are emulated by explicit descending
trials (`trySpaces1Desc`, `tryDotStar`). -/

/-- Consume a literal. -/
def pLit (lit : List Char) (cs : List Char) : Option (List Char × Nat) :=
  if leadMatch lit cs then some (cs.drop lit.length, lit.length) else none

/-- Consume `\s+` (at least one whitespace, maximal). -/
def pSpaces1 (cs : List Char) : Option (List Char × Nat) :=
  let run := cs.takeWhile isSpaceChar
  if run.isEmpty then none else some (cs.drop run.length, run.length)

/-- Consume `\w+` (at least one word character, maximal), returning the run. -/
def pWord1 (cs : List Char) : Option (List Char × List Char × Nat) :=
  let run := cs.takeWhile isWordChar
  if run.isEmpty then none else some (run, cs.drop run.length, run.length)

/-- Consume one given character. -/
def pChar (c : Char) (cs : List Char) : Option (List Char × Nat) :=
  match cs with
  | d :: rest => if d == c then some (rest, 1) else none
  | [] => none

/-- Quote characters of the regex class accepting either a single or a double quote. -/
def isQuote (c : Char) : Bool := (c.toNat == 39) || (c.toNat == 34)

/-- Consume one quote character. -/
def pQuote (cs : List Char) : Option (List Char × Nat) :=
  match cs with
  | d :: rest => if isQuote d then some (rest, 1) else none
  | [] => none

/-- Consume `[^'"]+` (at least one non-quote character, maximal), returning the run. -/
def pNonQuote1 (cs : List Char) : Option (List Char × List Char × Nat) :=
  let run := cs.takeWhile fun c => !isQuote c
  if run.isEmpty then none else some (run, cs.drop run.length, run.length)

/-- Regex `function\s+(\w+)\s*\(` (source: first JS function pattern). -/
def mFuncDecl (cs : List Char) : Option (List Char × Nat) := do
  let (r1, n1) ← pLit ("function".data) cs
  let (r2, n2) ← pSpaces1 r1
  let (w, r3, n3) ← pWord1 r2
  let sp := r3.takeWhile isSpaceChar
  let (_r4, _) ← pChar '(' (r3.drop sp.length)
  return (w, n1 + n2 + n3 + sp.length + 1)

/-- Regex `const\s+(\w+)\s*=\s*\([^)]*\)\s*=>` (source: JS arrow-function pattern). -/
def mArrowFunc (cs : List Char) : Option (List Char × Nat) := do
  let (r1, n1) ← pLit ("const".data) cs
  let (r2, n2) ← pSpaces1 r1
  let (w, r3, n3) ← pWord1 r2
  let sp1 := r3.takeWhile isSpaceChar
  let (r4, _) ← pChar '=' (r3.drop sp1.length)
  let sp2 := r4.takeWhile isSpaceChar
  let (r5, _) ← pChar '(' (r4.drop sp2.length)
  let body := r5.takeWhile fun c => !(c == ')')
  let (r6, _) ← pChar ')' (r5.drop body.length)
  let sp3 := r6.takeWhile isSpaceChar
  let (r7, _) ← pChar '=' (r6.drop sp3.length)
  let (_r8, _) ← pChar '>' r7
  return (w, n1 + n2 + n3 + sp1.length + 1 + sp2.length + 1 + body.length + 1 +
             sp3.length + 1 + 1)

/-- Regex `(\w+)\s*\([^)]*\)\s*\x7b` (source: JS call-with-brace-body pattern). -/
def mCallBrace (cs : List Char) : Option (List Char × Nat) := do
  let (w, r1, n1) ← pWord1 cs
  let sp1 := r1.takeWhile isSpaceChar
  let (r2, _) ← pChar '(' (r1.drop sp1.length)
  let body := r2.takeWhile fun c => !(c == ')')
  let (r3, _) ← pChar ')' (r2.drop body.length)
  let sp2 := r3.takeWhile isSpaceChar
  let (_r4, _) ← pChar (Char.ofNat 123) (r3.drop sp2.length)
  return (w, n1 + sp1.length + 1 + body.length + 1 + sp2.length + 1)

/-- Regex `class\s+(\w+)` (source: JS/Python class pattern). -/
def mClassDecl (cs : List Char) : Option (List Char × Nat) := do
  let (r1, n1) ← pLit ("class".data) cs
  let (r2, n2) ← pSpaces1 r1
  let (w, _r3, n3) ← pWord1 r2
  return (w, n1 + n2 + n3)

/-- Regex `def\s+(\w+)\s*\(` (source: search.py Python function pattern). -/
def mPyDef (cs : List Char) : Option (List Char × Nat) := do
  let (r1, n1) ← pLit ("def".data) cs
  let (r2, n2) ← pSpaces1 r1
  let (w, r3, n3) ← pWord1 r2
  let sp := r3.takeWhile isSpaceChar
  let (_r4, _) ← pChar '(' (r3.drop sp.length)
  return (w, n1 + n2 + n3 + sp.length + 1)

/-- Regex `import\s+(\w+)` (source: search.py Python import pattern). -/
def mPyImp1 (cs : List Char) : Option (List Char × Nat) := do
  let (r1, n1) ← pLit ("import".data) cs
  let (r2, n2) ← pSpaces1 r1
  let (w, _r3, n3) ← pWord1 r2
  return (w, n1 + n2 + n3)

/-- Regex `from\s+(\w+)\s+import` (source: search.py Python from-import pattern). -/
def mPyImp2 (cs : List Char) : Option (List Char × Nat) := do
  let (r1, n1) ← pLit ("from".data) cs
  let (r2, n2) ← pSpaces1 r1
  let (w, r3, n3) ← pWord1 r2
  let (r4, n4) ← pSpaces1 r3
  let (_r5, n5) ← pLit ("import".data) r4
  return (w, n1 + n2 + n3 + n4 + n5)

/-- Regex `import\s+(\w+)\s+as\s+\w+` (source: search.py Python import-as pattern). -/
def mPyImp3 (cs : List Char) : Option (List Char × Nat) := do
  let (r1, n1) ← pLit ("import".data) cs
  let (r2, n2) ← pSpaces1 r1
  let (w, r3, n3) ← pWord1 r2
  let (r4, n4) ← pSpaces1 r3
  let (r5, n5) ← pLit ("as".data) r4
  let (r6, n6) ← pSpaces1 r5
  let (_w2, _r7, n7) ← pWord1 r6
  return (w, n1 + n2 + n3 + n4 + n5 + n6 + n7)

/-- Regex `import\s+(\w+)\s+from\s+['"]([^'"]+)['"]`, capturing the module
path, group 2 (source: codebase.py JS import pattern 1). -/
def mJsImport1 (cs : List Char) : Option (List Char × Nat) := do
  let (r1, n1) ← pLit ("import".data) cs
  let (r2, n2) ← pSpaces1 r1
  let (_w, r3, n3) ← pWord1 r2
  let (r4, n4) ← pSpaces1 r3
  let (r5, n5) ← pLit ("from".data) r4
  let (r6, n6) ← pSpaces1 r5
  let (r7, _) ← pQuote r6
  let (body, r8, n8) ← pNonQuote1 r7
  let (_r9, _) ← pQuote r8
  return (body, n1 + n2 + n3 + n4 + n5 + n6 + 1 + n8 + 1)

/-- Regex `import\s*\x7b([^\x7d]+)\x7d\s+from\s+['"]([^'"]+)['"]`, capturing
the module path, group 2 (source: codebase.py JS import pattern 2). -/
def mJsImport2 (cs : List Char) : Option (List Char × Nat) := do
  let (r1, n1) ← pLit ("import".data) cs
  let sp := r1.takeWhile isSpaceChar
  let (r2, _) ← pChar (Char.ofNat 123) (r1.drop sp.length)
  let names := r2.takeWhile fun c => !(c == Char.ofNat 125)
  if names.isEmpty then none else do
  let (r3, _) ← pChar (Char.ofNat 125) (r2.drop names.length)
  let (r4, n4) ← pSpaces1 r3
  let (r5, n5) ← pLit ("from".data) r4
  let (r6, n6) ← pSpaces1 r5
  let (r7, _) ← pQuote r6
  let (body, r8, n8) ← pNonQuote1 r7
  let (_r9, _) ← pQuote r8
  return (body, n1 + sp.length + 1 + names.length + 1 + n4 + n5 + n6 + 1 + n8 + 1)

/-- Regex `const\s+(\w+)\s*=\s*require\s*\(['"]([^'"]+)['"]\)`, capturing the
module path, group 2 (source: codebase.py JS require pattern). -/
def mJsImport3 (cs : List Char) : Option (List Char × Nat) := do
  let (r1, n1) ← pLit ("const".data) cs
  let (r2, n2) ← pSpaces1 r1
  let (_w, r3, n3) ← pWord1 r2
  let sp1 := r3.takeWhile isSpaceChar
  let (r4, _) ← pChar '=' (r3.drop sp1.length)
  let sp2 := r4.takeWhile isSpaceChar
  let (r5, n5) ← pLit ("require".data) (r4.drop sp2.length)
  let sp3 := r5.takeWhile isSpaceChar
  let (r6, _) ← pChar '(' (r5.drop sp3.length)
  let (r7, _) ← pQuote r6
  let (body, r8, n8) ← pNonQuote1 r7
  let (r9, _) ← pQuote r8
  let (_r10, _) ← pChar ')' r9
  return (body, n1 + n2 + n3 + sp1.length + 1 + sp2.length + n5 + sp3.length + 1 +
               1 + n8 + 1 + 1)

/-- Regex `import\s+([^;]+);` (source: Java import pattern). -/
def mJavaImport (cs : List Char) : Option (List Char × Nat) := do
  let (r1, n1) ← pLit ("import".data) cs
  let (r2, n2) ← pSpaces1 r1
  let body := r2.takeWhile fun c => !(c == ';')
  if body.isEmpty then none else do
  let (_r3, _) ← pChar ';' (r2.drop body.length)
  return (body, n1 + n2 + body.length + 1)

/-- Regex `(?:public\s+)?class\s+(\w+)` (source: Java class pattern); the
optional modifier is tried first, as the regex engine does. -/
def mJavaClass (cs : List Char) : Option (List Char × Nat) :=
  (do
    let (r0, n0) ← pLit ("public".data) cs
    let (r1, n1) ← pSpaces1 r0
    let (w, n) ← mClassDecl r1
    return (w, n0 + n1 + n)) <|> mClassDecl cs

/-- One backtracking alternative of the Java method regex
`(?:public|private|protected)?\s*(?:static\s+)?(?:final\s+)?(?:<[^>]+>\s+)?(\w+)\s+(\w+)\s*\(`,
capturing the method name, group 2. -/
def mJavaMethodWith (modifier : Option (List Char)) (hasStatic hasFinal hasGen : Bool)
    (cs : List Char) : Option (List Char × Nat) := do
  let (r1, n1) ← match modifier with
    | some lit => pLit lit cs
    | none => some (cs, 0)
  let sp0 := r1.takeWhile isSpaceChar
  let r2 := r1.drop sp0.length
  let (r3, n3) ← if hasStatic then do
      let (ra, na) ← pLit ("static".data) r2
      let (rb, nb) ← pSpaces1 ra
      pure (rb, na + nb)
    else pure (r2, 0)
  let (r4, n4) ← if hasFinal then do
      let (ra, na) ← pLit ("final".data) r3
      let (rb, nb) ← pSpaces1 ra
      pure (rb, na + nb)
    else pure (r3, 0)
  let (r5, n5) ← if hasGen then do
      let (ra, _) ← pChar '<' r4
      let body := ra.takeWhile fun c => !(c == '>')
      if body.isEmpty then none else do
      let (rb, _) ← pChar '>' (ra.drop body.length)
      let (rc, nc) ← pSpaces1 rb
      pure (rc, 1 + body.length + 1 + nc)
    else pure (r4, 0)
  let (_t, r6, n6) ← pWord1 r5
  let (r7, n7) ← pSpaces1 r6
  let (w, r8, n8) ← pWord1 r7
  let sp9 := r8.takeWhile isSpaceChar
  let (_r9, _) ← pChar '(' (r8.drop sp9.length)
  return (w, n1 + sp0.length + n3 + n4 + n5 + n6 + n7 + n8 + sp9.length + 1)

/-- All backtracking alternatives of the Java method regex, in the engine's
trial order (each optional part: present before absent, alternation left to
right). -/
def javaCombos : List (Option (List Char) × Bool × Bool × Bool) :=
  [some ("public".data), some ("private".data), some ("protected".data), none].flatMap fun m =>
    [true, false].flatMap fun s =>
      [true, false].flatMap fun f =>
        [true, false].map fun g => (m, s, f, g)

/-- Java method matcher: first succeeding alternative, capturing group 2. -/
def mJavaMethod (cs : List Char) : Option (List Char × Nat) :=
  javaCombos.foldl (fun acc cb => acc <|> mJavaMethodWith cb.1 cb.2.1 cb.2.2.1 cb.2.2.2 cs) none

/-- Descending trials for a leading `\s+` followed by the rest of a pattern:
the engine tries the longest whitespace run first.  `j` is the current trial
length. -/
def trySpaces1Desc (tail : List Char → Option (List Char × Nat)) (cs : List Char) :
    Nat → Option (List Char × Nat)
  | 0 => none
  | j + 1 =>
    if (cs.take (j + 1)).all isSpaceChar then
      match tail (cs.drop (j + 1)) with
      | some (cap, n) => some (cap, (j + 1) + n)
      | none => trySpaces1Desc tail cs j
    else trySpaces1Desc tail cs j

/-- Descending trials for `.*` (any characters except newline) followed by the
rest of a pattern: the engine tries the longest span first.  `k` is the
current trial length. -/
def tryDotStar (tail : List Char → Option (List Char × Nat)) (cs : List Char) :
    Nat → Option (List Char × Nat)
  | 0 =>
    (tail cs).map fun r => (r.1, r.2)
  | k + 1 =>
    match tail (cs.drop (k + 1)) with
    | some (cap, n) => some (cap, (k + 1) + n)
    | none => tryDotStar tail cs k

/-- Length of the region `.*` may span: up to the next newline. -/
def dotSpan (cs : List Char) : Nat :=
  (cs.takeWhile fun c => !(c == Char.ofNat 10)).length

/-- Regex `import\s+.*\s+from\s+['"]([^'"]+)['"]` (source: search.py /
codebase.py JS import-list pattern).  After the backtracking prefix the tail
`\s+from\s+['"]([^'"]+)['"]` is deterministic. -/
def mJsImportStar (cs : List Char) : Option (List Char × Nat) := do
  let (r1, n1) ← pLit ("import".data) cs
  let run := (r1.takeWhile isSpaceChar).length
  let (cap, n) ← trySpaces1Desc
    (fun cs1 => tryDotStar
      (fun cs2 => do
        let (r2, n2) ← pSpaces1 cs2
        let (r3, n3) ← pLit ("from".data) r2
        let (r4, n4) ← pSpaces1 r3
        let (r5, _) ← pQuote r4
        let (body, r6, n6) ← pNonQuote1 r5
        let (_r7, _) ← pQuote r6
        return (body, n2 + n3 + n4 + 1 + n6 + 1))
      cs1 (dotSpan cs1))
    r1 run
  return (cap, n1 + n)

/-- Regex `const\s+.*\s*=\s*require\s*\(['"]([^'"]+)['"]\)` (source:
search.py / codebase.py JS require-var pattern). -/
def mJsRequireStar (cs : List Char) : Option (List Char × Nat) := do
  let (r1, n1) ← pLit ("const".data) cs
  let run := (r1.takeWhile isSpaceChar).length
  let (cap, n) ← trySpaces1Desc
    (fun cs1 => tryDotStar
      (fun cs2 => do
        let sp1 := cs2.takeWhile isSpaceChar
        let (r2, _) ← pChar '=' (cs2.drop sp1.length)
        let sp2 := r2.takeWhile isSpaceChar
        let (r3, n3) ← pLit ("require".data) (r2.drop sp2.length)
        let sp3 := r3.takeWhile isSpaceChar
        let (r4, _) ← pChar '(' (r3.drop sp3.length)
        let (r5, _) ← pQuote r4
        let (body, r6, n6) ← pNonQuote1 r5
        let (r7, _) ← pQuote r6
        let (_r8, _) ← pChar ')' r7
        return (body, sp1.length + 1 + sp2.length + n3 + sp3.length + 1 + 1 + n6 + 1 + 1))
      cs1 (dotSpan cs1))
    r1 run
  return (cap, n1 + n)

/-! ### `re.finditer` driver -/

/-- Fueled scan: try the matcher at every position, left to right, skipping
over a found match (Python `re.finditer` yields non-overlapping matches);
returns captures with their start offsets.  Fuel `|cs|` always suffices
because each step consumes at least one character. -/
def scanM {γ : Type} (m : List Char → Option (γ × Nat)) :
    Nat → Nat → List Char → List (γ × Nat)
  | 0, _, _ => []
  | _ + 1, _, [] => []
  | f + 1, pos, c :: rest =>
    match m (c :: rest) with
    | some (cap, len) =>
      let step := max len 1
      (cap, pos) :: scanM m f (pos + step) ((c :: rest).drop step)
    | none => scanM m f (pos + 1) rest

/-- All matches of a pattern in a text, as (capture, start offset). -/
def findMatches {γ : Type} (m : List Char → Option (γ × Nat)) (cs : List Char) :
    List (γ × Nat) :=
  scanM m cs.length 0 cs

/-- 1-based line number of an offset: `content[:pos].count('\n') + 1`. -/
def lineOf (cs : List Char) (pos : Nat) : Nat :=
  (cs.take pos).count (Char.ofNat 10) + 1

/-! ### Symbol tables -/

/-- One extracted symbol.  The source stores heterogeneous dicts; the union of
the keys that actually occur is modelled, each defaulted like a missing dict
key (`symbol.get('name', '')` reads `name`).  `aliasStr` is the dict key
`alias`, `names` the key `names` of `from x import a, b` entries. -/
structure SymbolEntry where
  name : Option String := none
  module : Option String := none
  line : Nat := 0
  args : List String := []
  docstring : String := ""
  methods : List String := []
  aliasStr : String := ""
  names : List String := []
deriving DecidableEq

/-- The four symbol lists kept per file (dict insertion order: functions,
classes, variables, imports); the dict key `variables` is a reserved Lean
token, so the field is named `vars`. -/
structure SymbolTable where
  functions : List SymbolEntry := []
  classes : List SymbolEntry := []
  vars : List SymbolEntry := []
  imports : List SymbolEntry := []
deriving DecidableEq

/-- The freshly initialised, all-empty symbol table. -/
def emptySymbolTable : SymbolTable := {}

/-- Iteration over `symbols.items()` in dict insertion order. -/
def allSymbols (st : SymbolTable) : List SymbolEntry :=
  st.functions ++ st.classes ++ st.vars ++ st.imports

/-- `symbol.get('name', '')`. -/
def symName (s : SymbolEntry) : String := s.name.getD ""

/-! ### Python AST symbols (codebase.py `_extract_python_symbols`).
`ast.parse` is the Python standard library, external to this repository, so
the parser is a parameter `parse : String → Option (List PyNode)` (`none`
models a parse error caught by the bare `except`) and the AST is modelled by
`PyNode`; `ast.get_docstring(node) or ""` is carried as the `doc` field. -/

/-- An assignment target: an `ast.Name` or anything else. -/
inductive PyTarget where
  | targetName (id : String)
  | targetOther
deriving DecidableEq

/-- Python AST nodes relevant to the extractor; `pyOther` covers every other
node kind, which contributes nothing but is still walked into. -/
inductive PyNode where
  | pyFunctionDef (name : String) (lineno : Nat) (args : List String) (doc : String)
      (body : List PyNode)
  | pyClassDef (name : String) (lineno : Nat) (doc : String) (body : List PyNode)
  | pyImport (names : List (String × String)) (lineno : Nat)
  | pyImportFrom (moduleOpt : Option String) (names : List String) (lineno : Nat)
  | pyAssign (targets : List PyTarget) (lineno : Nat)
  | pyOther (children : List PyNode)

/-- Traversal of all nodes.  `ast.walk` enumerates breadth-first; this
pre-order traversal visits the same node multiset, so each of the four
symbol lists matches the source's up to order. -/
def pyWalk : List PyNode → List PyNode
  | [] => []
  | .pyFunctionDef nm ln ar doc body :: rest =>
    .pyFunctionDef nm ln ar doc body :: (pyWalk body ++ pyWalk rest)
  | .pyClassDef nm ln doc body :: rest =>
    .pyClassDef nm ln doc body :: (pyWalk body ++ pyWalk rest)
  | .pyImport ns ln :: rest => .pyImport ns ln :: pyWalk rest
  | .pyImportFrom m ns ln :: rest => .pyImportFrom m ns ln :: pyWalk rest
  | .pyAssign ts ln :: rest => .pyAssign ts ln :: pyWalk rest
  | .pyOther cs :: rest => .pyOther cs :: (pyWalk cs ++ pyWalk rest)

/-- Method-name list of a class body (`n.name for n in node.body if FunctionDef`). -/
def classMethods (body : List PyNode) : List String :=
  body.filterMap fun n =>
    match n with
    | .pyFunctionDef nm _ _ _ _ => some nm
    | _ => none

/-- Contribution of one walked node to the symbol table. -/
def addPyNode (st : SymbolTable) : PyNode → SymbolTable
  | .pyFunctionDef nm ln args doc _ =>
    { st with functions :=
        st.functions ++ [{ name := some nm, line := ln, args := args, docstring := doc }] }
  | .pyClassDef nm ln doc body =>
    { st with classes :=
        st.classes ++ [{ name := some nm, line := ln, methods := classMethods body,
                         docstring := doc }] }
  | .pyImport names ln =>
    { st with imports :=
        st.imports ++ names.map fun na =>
          { module := some na.1, aliasStr := na.2, line := ln } }
  | .pyImportFrom m names ln =>
    { st with imports :=
        st.imports ++ [{ module := some (m.getD ""), names := names, line := ln }] }
  | .pyAssign targets ln =>
    { st with vars :=
        st.vars ++ targets.filterMap fun t =>
          match t with
          | .targetName id => some { name := some id, line := ln }
          | .targetOther => none }
  | .pyOther _ => st

/-- Symbols of a parsed Python module body. -/
def pyCollect (body : List PyNode) : SymbolTable :=
  (pyWalk body).foldl addPyNode emptySymbolTable

/-- codebase.py `_extract_python_symbols`: on any parse failure the bare
`except` returns the initialised empty table. -/
def extractPySymbolsCb (parse : String → Option (List PyNode)) (content : String) :
    SymbolTable :=
  match parse content with
  | none => emptySymbolTable
  | some body => pyCollect body

/-! ### Regex-based symbol extraction -/

/-- codebase.py `_extract_js_symbols`. -/
def extractJsSymbolsCb (cs : List Char) : SymbolTable :=
  { imports :=
      (findMatches mJsImport1 cs ++ findMatches mJsImport2 cs ++
        findMatches mJsImport3 cs).map fun m =>
          { module := some m.1.asString, line := lineOf cs m.2 },
    functions :=
      (findMatches mFuncDecl cs ++ findMatches mArrowFunc cs ++
        findMatches mCallBrace cs).map fun m =>
          { name := some m.1.asString, line := lineOf cs m.2 },
    classes :=
      (findMatches mClassDecl cs).map fun m =>
        { name := some m.1.asString, line := lineOf cs m.2 },
    vars := [] }

/-- `_extract_java_symbols` (textually identical in codebase.py and search.py). -/
def extractJavaSymbols (cs : List Char) : SymbolTable :=
  { imports :=
      (findMatches mJavaImport cs).map fun m =>
        { module := some m.1.asString, line := lineOf cs m.2 },
    classes :=
      (findMatches mJavaClass cs).map fun m =>
        { name := some m.1.asString, line := lineOf cs m.2 },
    functions :=
      (findMatches mJavaMethod cs).map fun m =>
        { name := some m.1.asString, line := lineOf cs m.2 },
    vars := [] }

/-- search.py `_extract_python_symbols` (regex-based, unlike codebase.py's). -/
def extractPySymbolsSearch (cs : List Char) : SymbolTable :=
  { functions :=
      (findMatches mPyDef cs).map fun m =>
        { name := some m.1.asString, line := lineOf cs m.2 },
    classes :=
      (findMatches mClassDecl cs).map fun m =>
        { name := some m.1.asString, line := lineOf cs m.2 },
    imports :=
      (findMatches mPyImp1 cs ++ findMatches mPyImp2 cs ++
        findMatches mPyImp3 cs).map fun m =>
          { module := some m.1.asString, line := lineOf cs m.2 },
    vars := [] }

/-- search.py `_extract_js_symbols` (its import patterns use `.*`). -/
def extractJsSymbolsSearch (cs : List Char) : SymbolTable :=
  { functions :=
      (findMatches mFuncDecl cs ++ findMatches mArrowFunc cs ++
        findMatches mCallBrace cs).map fun m =>
          { name := some m.1.asString, line := lineOf cs m.2 },
    classes :=
      (findMatches mClassDecl cs).map fun m =>
        { name := some m.1.asString, line := lineOf cs m.2 },
    imports :=
      (findMatches mJsImportStar cs ++ findMatches mJsRequireStar cs).map fun m =>
        { module := some m.1.asString, line := lineOf cs m.2 },
    vars := [] }

/-! ### Language detection -/

/-- The fixed extension → language table (identical in both source files). -/
def langMap : List (String × String) :=
  [(".py", "python"), (".js", "javascript"), (".ts", "typescript"),
   (".jsx", "javascript"), (".tsx", "typescript"), (".java", "java"),
   (".cpp", "cpp"), (".c", "c"), (".h", "c"), (".hpp", "cpp"),
   (".cs", "csharp"), (".php", "php"), (".rb", "ruby"), (".go", "go"),
   (".rs", "rust"), (".swift", "swift"), (".kt", "kotlin")]

/-- Association-list lookup, Python `d.get(k)` / `k in d`. -/
def alGet? (k : String) (l : List (String × α)) : Option α :=
  (l.find? fun e => e.1 == k).map (·.2)

/-- `_detect_language`: map the lower-cased suffix (`Path.suffix` works on the
base name), defaulting to "unknown". -/
def detectLanguage (p : String) : String :=
  (alGet? (lowList (pathSuffix (baseName p)).data).asString langMap).getD "unknown"

/-- codebase.py `_extract_symbols` dispatch. -/
def extractSymbolsCb (parse : String → Option (List PyNode)) (content path : String) :
    SymbolTable :=
  let lang := detectLanguage path
  if lang == "python" then extractPySymbolsCb parse content
  else if lang == "javascript" || lang == "typescript" then extractJsSymbolsCb content.data
  else if lang == "java" then extractJavaSymbols content.data
  else emptySymbolTable

/-! ### Comment extraction (codebase.py `_extract_comments`) -/

/-- Python-style comments: for each line containing `#`, the text between the
first and second `#` (that is `line.split('#')[1]`), stripped, kept if
non-empty. -/
def pyComments (cs : List Char) : List String :=
  (splitOnChar (Char.ofNat 10) cs).filterMap fun line =>
    if hasSub ['#'] line then
      let c := stripChars (((splitOnChar '#' line).drop 1).headD [])
      if c.isEmpty then none else some c.asString
    else none

/-- C-style single-line comments: for each line containing `//`, the text
between the first and second `//` (that is `line.split('//')[1]`), stripped,
kept if non-empty. -/
def cLineComments (cs : List Char) : List String :=
  (splitOnChar (Char.ofNat 10) cs).filterMap fun line =>
    if hasSub ['/', '/'] line then
      let c := stripChars (((splitOnDSlash line).drop 1).headD [])
      if c.isEmpty then none else some c.asString
    else none

/-- Interior of a block comment starting after `/*`: consumes characters
matching `([^*]|\*(?!/))*` and stops exactly before the closing `*/`,
returning the last consumed character (the last repetition of the regex
group, which is what `match.group(1)` yields), the consumed count and the
rest.  Fuel `|cs|` suffices. -/
def blockInterior : Nat → List Char → Option (Option Char × Nat × List Char)
  | 0, _ => none
  | f + 1, cs =>
    if leadMatch ['*', '/'] cs then some (none, 0, cs)
    else
      match cs with
      | [] => none
      | c :: rest =>
        match blockInterior f rest with
        | some (last, k, tailRest) => some (last <|> some c, k + 1, tailRest)
        | none => none

/-- Regex `/\*([^*]|\*(?!/))*\*/` under `re.DOTALL`: the capture is the last
repetition of the group — one character — or `None` when the interior is
empty (`/**/`). -/
def mBlockComment (cs : List Char) : Option (Option Char × Nat) := do
  let (r1, _) ← pLit ['/', '*'] cs
  let (last, k, _rest) ← blockInterior r1.length r1
  return (last, 2 + k + 2)

/-- Block comments of a file.  `match.group(1).strip()` raises
`AttributeError` when the capture is `None`; that exception escapes
`_extract_comments` and is caught only by `_index_file`'s outer handler,
which skips the file — modelled by `none`. -/
def cBlockComments (cs : List Char) : Option (List String) :=
  (findMatches mBlockComment cs).foldl
    (fun acc m =>
      match acc, m.1 with
      | some l, some c => some (l ++ [(stripChars [c]).asString])
      | _, _ => none)
    (some [])

/-- codebase.py `_extract_comments`, dispatching on the language; `none`
models the exception path. -/
def extractCommentsCb (lang : String) (cs : List Char) : Option (List String) :=
  if lang == "python" then some (pyComments cs)
  else if lang == "javascript" || lang == "typescript" || lang == "java" ||
      lang == "cpp" || lang == "c" then
    (cBlockComments cs).map fun bs => cLineComments cs ++ bs
  else some []

/-! ### File records and the index build (codebase.py) -/

/-- One `file_index` entry.  Unused-by-any-claim fields of the source dict
(`absolute_path`, `last_modified`, and the `imports` / `functions` /
`classes` keys, which are recomputations of the corresponding `symbols`
lists) are omitted from the model. -/
structure FileRecord where
  path : String
  content : String
  size : Nat
  language : String
  symbols : SymbolTable
  comments : List String
deriving DecidableEq

/-- codebase.py `_index_file` for one file whose content was read
successfully: `none` models the per-file exception path (skipped file). -/
def indexFileRecord (parse : String → Option (List PyNode)) (relPath content : String) :
    Option FileRecord :=
  (extractCommentsCb (detectLanguage relPath) content.data).map fun cmts =>
    { path := relPath, content := content, size := content.data.length,
      language := detectLanguage relPath,
      symbols := extractSymbolsCb parse content relPath,
      comments := cmts }

/-- A directory tree entry, the input of `os.walk`. -/
inductive FsEntry where
  | file (name : String)
  | dir (name : String) (children : List FsEntry)

/-- The pruning rule of `_get_code_files`: names starting with `.` plus the
fixed denylist. -/
def isExcludedDir (d : String) : Bool :=
  leadMatch ['.'] d.data ||
  d ∈ ["node_modules", "__pycache__", ".git", "build", "dist", "target",
       "venv", "env", ".venv", ".env", "bin", "obj"]

/-- The extension allow-list of `_get_code_files`. -/
def codeExtensionsCb : List String :=
  [".py", ".js", ".ts", ".jsx", ".tsx", ".java", ".cpp", ".c", ".h",
   ".hpp", ".cs", ".php", ".rb", ".go", ".rs", ".swift", ".kt",
   ".scala", ".clj", ".hs", ".ml", ".fs", ".dart", ".r", ".m", ".mm"]

/-- The `os.walk` of `_get_code_files` with in-place pruning of excluded
directories (`dirs[:] = ...` prunes before descending): collects, per
directory, files whose suffix is allowed, and recurses only into
non-excluded subdirectories.  `os.walk` emits a directory's files before
those of its subdirectories; this traversal interleaves per entry, yielding
the same file set.  Fuel bounds the recursion; any fuel at least the number
of tree nodes yields the full walk. -/
def walkF : Nat → List String → List FsEntry → List (List String × String)
  | 0, _, _ => []
  | _ + 1, _, [] => []
  | f + 1, acc, .file n :: rest =>
    (if pathSuffix n ∈ codeExtensionsCb then [(acc, n)] else []) ++ walkF f acc rest
  | f + 1, acc, .dir n cs :: rest =>
    (if isExcludedDir n then [] else walkF f (acc ++ [n]) cs) ++ walkF f acc rest

/-- `_build_index` over an explicit list of (relative path, content) pairs —
the files the walk found whose reads succeeded. -/
def buildIndexFromFiles (parse : String → Option (List PyNode))
    (files : List (String × String)) : List FileRecord :=
  files.filterMap fun pc => indexFileRecord parse pc.1 pc.2

/-- `_build_index`: walk the tree, read each file (`fs` returns `none` for an
unreadable file, which is skipped with a warning), and index the rest. -/
def buildIndex (parse : String → Option (List PyNode)) (fuel : Nat)
    (tree : List FsEntry) (fs : String → Option String) : List FileRecord :=
  buildIndexFromFiles parse
    ((walkF fuel [] tree).filterMap fun df =>
      (fs (joinPath df.1 df.2)).map fun c => (joinPath df.1 df.2, c))

/-! ### Semantic and directory search (codebase.py) -/

/-- `_semantic_search`'s per-file score, scaled by 10 to integers
(weights 0.3/0.4/0.2/0.1 become 3/4/2/1). -/
def semanticScore (ql : List Char) (r : FileRecord) : Nat :=
  3 * partScore ql (lowList (baseName r.path).data) +
  4 * partScore ql (lowList r.content.data) +
  (allSymbols r.symbols).foldl (fun acc s => acc + 2 * partScore ql (lowList (symName s).data)) 0 +
  r.comments.foldl (fun acc c => acc + 1 * partScore ql (lowList c.data)) 0

/-- The scored file list, sorted by descending score (Python's stable
`scores.sort(key=..., reverse=True)`). -/
def semanticScored (q : String) (idx : List FileRecord) : List (String × Nat) :=
  stableSort (fun a b => Nat.ble b.2 a.2)
    (idx.map fun r => (r.path, semanticScore (lowList q.data) r))

/-- The scored survivors above the threshold (`score > 30`, scaled to 300). -/
def semanticSurvivors (q : String) (idx : List FileRecord) : List (String × Nat) :=
  (semanticScored q idx).filter fun x => Nat.blt 300 x.2

/-- `_semantic_search`: the surviving paths in score order. -/
def semanticSearch (q : String) (idx : List FileRecord) : List String :=
  (semanticSurvivors q idx).map (·.1)

/-- `_directory_search`: every indexed path containing the query
case-insensitively, sorted lexicographically. -/
def directorySearch (q : String) (idx : List FileRecord) : List String :=
  stableSort (fun a b => lexLe a.data b.data)
    ((idx.map (·.path)).filter fun p => hasSub (lowList q.data) (lowList p.data))

/-- `get_relevant_context`'s mode test: a slash in the raw query, or
"directory"/"folder" in the lower-cased query. -/
def isDirQuery (q : String) : Bool :=
  q.data.contains '/' || hasSub ("directory".data) (lowList q.data) ||
  hasSub ("folder".data) (lowList q.data)

/-- The relevant-file list `get_relevant_context` computes before truncating
to the top 10. -/
def relevantFilesFor (q : String) (idx : List FileRecord) : List String :=
  if isDirQuery q then directorySearch q idx else semanticSearch q idx

/-! ### Style profiling and complexity (codebase.py) -/

/-- The (space-led, tab-led) line counts of `_detect_indentation_style`. -/
def indentCounts (idx : List FileRecord) : Nat × Nat :=
  idx.foldl
    (fun acc r =>
      (splitOnChar (Char.ofNat 10) r.content.data).foldl
        (fun acc line =>
          if leadMatch [' '] line then (acc.1 + 1, acc.2)
          else if leadMatch [Char.ofNat 9] line then (acc.1, acc.2 + 1)
          else acc)
        acc)
    (0, 0)

/-- `_detect_indentation_style`: `'spaces' if space_count > tab_count else 'tabs'`. -/
def detectIndentationStyle (idx : List FileRecord) : String :=
  if (indentCounts idx).1 > (indentCounts idx).2 then "spaces" else "tabs"

/-- Specification-side count of lines (across all files) starting with a space. -/
def spaceLineCount (idx : List FileRecord) : Nat :=
  ((idx.map fun r => splitOnChar (Char.ofNat 10) r.content.data).flatten).countP
    (leadMatch [' '])

/-- Specification-side count of lines (across all files) starting with a tab. -/
def tabLineCount (idx : List FileRecord) : Nat :=
  ((idx.map fun r => splitOnChar (Char.ofNat 10) r.content.data).flatten).countP
    (leadMatch [Char.ofNat 9])

/-- The slice `cs[i : i+n]`. -/
def sliceAt (cs : List Char) (i n : Nat) : List Char := (cs.drop i).take n

/-- The character `cs[i]`, if in range. -/
def chAt (cs : List Char) (i : Nat) : Option Char := (cs.drop i).head?

/-- Does the word-bounded token `tok` match at offset `i` (case-insensitive,
`\b tok \b` with `re.IGNORECASE`)?  The slice equality forces the match to
lie inside the text. -/
def matchesTokAt (tok : List Char) (cs : List Char) (i : Nat) : Bool :=
  (lowList (sliceAt cs i tok.length) == tok) &&
  (i == 0 || !((chAt cs (i - 1)).elim false isWordChar)) &&
  ((chAt cs (i + tok.length)).elim true fun c => !isWordChar c)

/-- Number of matches of `\b tok \b`: `len(re.findall(...))`.  Word-bounded
matches of a fixed alphabetic token cannot overlap (every interior character
is a word character, while a later overlapping start would need a non-word
character just before it), so the non-overlapping left-to-right `findall`
count equals the count of matching offsets. -/
def countTok (tok : List Char) (cs : List Char) : Nat :=
  (List.range cs.length).countP (matchesTokAt tok cs)

/-- The decision-point tokens of `_calculate_cyclomatic_complexity`, in
source order. -/
def decisionToks : List (List Char) :=
  ["if".data, "else".data, "for".data, "while".data,
   "and".data, "or".data, "case".data, "catch".data]

/-- `_calculate_cyclomatic_complexity`: base 1 plus the per-token findall
counts. -/
def cyclomaticComplexity (content : String) : Nat :=
  decisionToks.foldl (fun acc t => acc + countTok t content.data) 1

/-- Specification-side count: offsets at which some decision token matches
(single pass, "occurrences of the tokens anywhere in the raw text"). -/
def decisionPointCount (cs : List Char) : Nat :=
  (List.range cs.length).countP fun i => decisionToks.any fun t => matchesTokAt t cs i

/-! ### The SemanticSearch state (search.py) -/

/-- One `self.index` entry of search.py `_index_file`. -/
structure SEntry where
  path : String
  language : String
  symbols : SymbolTable
  content : String
  size : Nat
  lines : Nat
deriving DecidableEq

/-- The four dicts of a `SemanticSearch` instance. -/
structure SState where
  index : List (String × SEntry) := []
  fileContents : List (String × String) := []
  symbols : List (String × SymbolTable) := []
  keywords : List (String × List String) := []
deriving DecidableEq

/-- The freshly constructed, empty search state. -/
def emptySState : SState := {}

/-- Dict assignment `d[k] = v`: replace in place or append. -/
def alSet (k : String) (v : α) : List (String × α) → List (String × α)
  | [] => [(k, v)]
  | (k', v') :: rest => if k' == k then (k, v) :: rest else (k', v') :: alSet k v rest

/-- Dict deletion `del d[k]`. -/
def alErase (k : String) (l : List (String × α)) : List (String × α) :=
  l.filter fun e => !(e.1 == k)

/-- `defaultdict(list)` append `d[k].append(p)`. -/
def kwAppend (k p : String) : List (String × List String) → List (String × List String)
  | [] => [(k, [p])]
  | (k', ps) :: rest => if k' == k then (k', ps ++ [p]) :: rest else (k', ps) :: kwAppend k p rest

/-- Python `list.remove(x)`: delete the first occurrence only. -/
def listRemoveFirst (x : String) : List String → List String
  | [] => []
  | y :: ys => if y == x then ys else y :: listRemoveFirst x ys

/-- search.py `_extract_symbols` dispatch. -/
def extractSymbolsSearch (content path : String) : SymbolTable :=
  let lang := detectLanguage path
  if lang == "python" then extractPySymbolsSearch content.data
  else if lang == "javascript" || lang == "typescript" then extractJsSymbolsSearch content.data
  else if lang == "java" then extractJavaSymbols content.data
  else emptySymbolTable

/-- search.py `_index_keywords`: every identifier token longer than two
characters is appended (lower-cased) to the keyword inverted index, once per
occurrence. -/
def indexKeywords (content path : String) (kws : List (String × List String)) :
    List (String × List String) :=
  (identWords content.data).foldl
    (fun kws w => if 2 < w.length then kwAppend (lowList w).asString path kws else kws)
    kws

/-- search.py `_index_file` for a file whose content was read successfully. -/
def sIndexFile (st : SState) (relPath content : String) : SState :=
  { fileContents := alSet relPath content st.fileContents,
    symbols := alSet relPath (extractSymbolsSearch content relPath) st.symbols,
    keywords := indexKeywords content relPath st.keywords,
    index := alSet relPath
      { path := relPath, language := detectLanguage relPath,
        symbols := extractSymbolsSearch content relPath, content := content,
        size := content.data.length,
        lines := content.data.count (Char.ofNat 10) + 1 }
      st.index }

/-- `index_codebase` after the walk: fold `_index_file` over the found files. -/
def buildSState (files : List (String × String)) : SState :=
  files.foldl (fun st pc => sIndexFile st pc.1 pc.2) emptySState

/-- search.py `remove_file`. -/
def sRemoveFile (st : SState) (p : String) : SState :=
  if (alGet? p st.index).isSome then
    { index := alErase p st.index,
      fileContents :=
        if (alGet? p st.fileContents).isSome then alErase p st.fileContents
        else st.fileContents,
      symbols :=
        if (alGet? p st.symbols).isSome then alErase p st.symbols else st.symbols,
      keywords := st.keywords.map fun e =>
        if p ∈ e.2 then (e.1, listRemoveFirst p e.2) else e }
  else st

/-- The guarded keyword removal of `update_file`:
`if name in keywords and path in keywords[name]: keywords[name].remove(path)`. -/
def kwRemoveGuarded (k p : String) (kws : List (String × List String)) :
    List (String × List String) :=
  match alGet? k kws with
  | some files =>
    if p ∈ files then kws.map fun e => if e.1 == k then (e.1, listRemoveFirst p e.2) else e
    else kws
  | none => kws

/-- search.py `update_file`.  The `content` argument is accepted and ignored,
as in the source, whose re-index step re-reads the file from disk (`fs`) and
files it under `str(Path(p).relative_to(Path(p).parent))` — the base name. -/
def sUpdateFile (fs : String → Option String) (st : SState) (filePath content : String) :
    SState :=
  let _ := content
  let st1 :=
    match alGet? filePath st.index with
    | some entry =>
      let kws2 := (allSymbols entry.symbols).foldl
        (fun kws s => kwRemoveGuarded (lowList (symName s).data).asString filePath kws)
        st.keywords
      { st with keywords := kws2 }
    | none => st
  match fs filePath with
  | none => st1
  | some diskContent => sIndexFile st1 (baseName filePath) diskContent

/-- The keyword-index bonus of `search_codebase`: a flat +10 for each query
word that is a keyword key whose file list contains the file. -/
def keywordBonus (st : SState) (fp : String) (queryWords : List String) : Nat :=
  queryWords.foldl
    (fun acc w =>
      match alGet? w st.keywords with
      | some files => if fp ∈ files then acc + 10 else acc
      | none => acc)
    0

/-! ### Concrete instances used by the claim theorems -/

/-- A placeholder record for total head operations. -/
def dummyRecord : FileRecord :=
  { path := "", content := "", size := 0, language := "", symbols := {}, comments := [] }

/-- A two-file JavaScript tree: `foo` is defined (and appears verbatim) only
in `a.js`, while `b.js` holds three near-miss function names. -/
def c1Tree : List FsEntry := [.file "a.js", .file "b.js"]

/-- Content of `a.js`. -/
def c1ContentA : String := "function foo() \x7b\x7d"

/-- Content of `b.js`. -/
def c1ContentB : String :=
  "function fox() \x7b\x7d\nfunction fod() \x7b\x7d\nfunction fos() \x7b\x7d"

/-- The file reader for `c1Tree`. -/
def c1Fs : String → Option String :=
  fun p => if p = "a.js" then some c1ContentA
    else if p = "b.js" then some c1ContentB else none

/-- The index built over `c1Tree` (no Python files, so the parser is unused). -/
def c1Idx : List FileRecord := buildIndex (fun _ => none) 10 c1Tree c1Fs

/-- The record of `a.js` in `c1Idx`. -/
def c1RecA : FileRecord := c1Idx.headD dummyRecord

/-- Two files with identical content and base name: identical semantic scores. -/
def c2Idx : List FileRecord :=
  buildIndexFromFiles (fun _ => none) [("a/x.hs", "getx"), ("b/x.hs", "getx")]

/-- A three-file index for the directory-mode instance. -/
def c3Idx : List FileRecord :=
  buildIndexFromFiles (fun _ => none)
    [("src/b.py", "x"), ("src/a.py", "y"), ("lib/c.py", "z")]

/-- A tree with one ordinary directory and one excluded directory, each
holding a Python file. -/
def c4Tree : List FsEntry :=
  [.dir "src" [.file "a.py"], .dir "node_modules" [.file "b.py"]]

/-- The file reader for `c4Tree`: both files are readable. -/
def c4Fs : String → Option String :=
  fun p => if p = "src/a.py" then some "x = 1"
    else if p = "node_modules/b.py" then some "y = 2" else none

/-- The index built over `c4Tree`. -/
def c4Idx : List FileRecord := buildIndex (fun _ => none) 10 c4Tree c4Fs

/-- A search state over one Python file whose content holds the identifier
`foo` twice. -/
def c6St : SState := buildSState [("a.py", "foo foo")]

/-- Disk state for the update instance: `src/a.q` still holds `"v0"`. -/
def c7Fs : String → Option String :=
  fun p => if p = "src/a.q" then some "v0" else none

/-- A search state over the single file `src/a.q` with content `"v0"`. -/
def c7St : SState := buildSState [("src/a.q", "v0")]

/-- An index with one space-led and one tab-led line (a tie). -/
def c8Idx : List FileRecord :=
  buildIndexFromFiles (fun _ => none) [("x.hs", " a\n\tb")]

/-- An index with two space-led lines and no tab-led line. -/
def c8SpIdx : List FileRecord :=
  buildIndexFromFiles (fun _ => none) [("x.hs", " a\n b")]

/-- An index with no space-led line and two tab-led lines. -/
def c8TbIdx : List FileRecord :=
  buildIndexFromFiles (fun _ => none) [("x.hs", "\ta\n\tb")]

/-- Files for the keyword-length instance: `foo` and `bar` are indexed,
`xy` is too short. -/
def c10Files : List (String × String) := [("a.py", "foo bar xy")]

/-! ## Theorems.
General-purpose lemmas about the embedded primitives first, then one theorem
per claim (with witnesses and counterexamples as required). -/

theorem insSorted_perm (le : α → α → Bool) (x : α) (l : List α) :
    (insSorted le x l).Perm (x :: l) := by
  induction l with
  | nil => simp [insSorted]
  | cons y ys ih =>
    simp only [insSorted]
    split
    · exact List.Perm.refl _
    · exact (ih.cons y).trans (List.Perm.swap x y ys)

theorem stableSort_perm (le : α → α → Bool) (l : List α) :
    (stableSort le l).Perm l := by
  induction l with
  | nil => simp [stableSort]
  | cons x xs ih => exact (insSorted_perm le x _).trans (ih.cons x)

theorem mem_stableSort (le : α → α → Bool) {a : α} {l : List α} :
    a ∈ stableSort le l ↔ a ∈ l :=
  (stableSort_perm le l).mem_iff

theorem pairwise_insSorted (le : α → α → Bool)
    (htr : ∀ a b c, le a b = true → le b c = true → le a c = true)
    (hto : ∀ a b, le a b = true ∨ le b a = true)
    (x : α) (l : List α) (h : l.Pairwise fun a b => le a b = true) :
    (insSorted le x l).Pairwise fun a b => le a b = true := by
  induction l with
  | nil => simp [insSorted]
  | cons y ys ih =>
    rw [List.pairwise_cons] at h
    obtain ⟨hy, hys⟩ := h
    simp only [insSorted]
    split
    case isTrue hxy =>
      rw [List.pairwise_cons]
      refine ⟨?_, List.pairwise_cons.mpr ⟨hy, hys⟩⟩
      intro z hz
      rcases List.mem_cons.mp hz with rfl | hz
      · exact hxy
      · exact htr x y z hxy (hy z hz)
    case isFalse hxy =>
      rw [List.pairwise_cons]
      refine ⟨?_, ih hys⟩
      intro z hz
      rcases List.mem_cons.mp ((insSorted_perm le x ys).mem_iff.mp hz) with rfl | hz
      · rcases hto z y with h' | h'
        · exact absurd h' hxy
        · exact h'
      · exact hy z hz

theorem pairwise_stableSort (le : α → α → Bool)
    (htr : ∀ a b c, le a b = true → le b c = true → le a c = true)
    (hto : ∀ a b, le a b = true ∨ le b a = true)
    (l : List α) :
    (stableSort le l).Pairwise fun a b => le a b = true := by
  induction l with
  | nil => simp [stableSort]
  | cons x xs ih => exact pairwise_insSorted le htr hto x _ ih

theorem lexLe_total (a b : List Char) : lexLe a b = true ∨ lexLe b a = true := by
  induction a generalizing b with
  | nil => left; rfl
  | cons x as ih =>
    cases b with
    | nil => right; rfl
    | cons y bs =>
      rcases Nat.lt_trichotomy x.toNat y.toNat with h | h | h
      · left; simp [lexLe, h]
      · have h1 : ¬ x.toNat < y.toNat := by omega
        have h2 : ¬ y.toNat < x.toNat := by omega
        rcases ih bs with h' | h'
        · left; simp [lexLe, h1, h2, h']
        · right; simp [lexLe, h1, h2, h']
      · right; simp [lexLe, h]

theorem lexLe_trans (a b c : List Char) (h1 : lexLe a b = true) (h2 : lexLe b c = true) :
    lexLe a c = true := by
  induction a generalizing b c with
  | nil => rfl
  | cons x as ih =>
    cases b with
    | nil => simp [lexLe] at h1
    | cons y bs =>
      cases c with
      | nil => simp [lexLe] at h2
      | cons z cs =>
        by_cases hxy : x.toNat < y.toNat
        · by_cases hyz : y.toNat < z.toNat
          · simp [lexLe, Nat.lt_trans hxy hyz]
          · by_cases hzy : z.toNat < y.toNat
            · simp [lexLe, hyz, hzy] at h2
            · have hxz : x.toNat < z.toNat := by omega
              simp [lexLe, hxz]
        · by_cases hyx : y.toNat < x.toNat
          · simp [lexLe, hxy, hyx] at h1
          · simp only [lexLe, if_neg hxy, if_neg hyx] at h1
            by_cases hyz : y.toNat < z.toNat
            · have hxz : x.toNat < z.toNat := by omega
              simp [lexLe, hxz]
            · by_cases hzy : z.toNat < y.toNat
              · simp [lexLe, hyz, hzy] at h2
              · simp only [lexLe, if_neg hyz, if_neg hzy] at h2
                have hxz1 : ¬ x.toNat < z.toNat := by omega
                have hxz2 : ¬ z.toNat < x.toNat := by omega
                simp only [lexLe, if_neg hxz1, if_neg hxz2]
                exact ih bs cs h1 h2

theorem levF_self (a : List Char) : ∀ f, a.length ≤ f → levF f a a = 0 := by
  induction a with
  | nil => intro f _; cases f <;> rfl
  | cons c cs ih =>
    intro f hf
    cases f with
    | zero => simp at hf
    | succ g =>
      simp only [levF, beq_self_eq_true, if_true]
      exact ih g (by simpa using Nat.succ_le_succ_iff.mp (by simpa using hf))

theorem levDist_self (a : List Char) : levDist a a = 0 :=
  levF_self a _ (Nat.le_add_right _ _)

theorem simPct_self (a : List Char) : simPct a a = 100 := by
  unfold simPct
  split
  · rfl
  case isFalse h =>
    rw [levDist_self, Nat.sub_zero]
    exact Nat.mul_div_cancel 100 (by omega)

theorem simPct_le_100 (a b : List Char) : simPct a b ≤ 100 := by
  unfold simPct
  split
  · exact le_refl _
  · exact Nat.div_le_of_le_mul
      (by calc 100 * ((a.length + b.length) - levDist a b)
             ≤ 100 * (a.length + b.length) := Nat.mul_le_mul_left _ (Nat.sub_le _ _)
           _ = (a.length + b.length) * 100 := Nat.mul_comm _ _)

theorem le_foldl_max (l : List Nat) : ∀ a, a ≤ l.foldl max a := by
  induction l with
  | nil => intro a; exact le_refl a
  | cons y ys ih => intro a; exact le_trans (Nat.le_max_left a y) (ih (max a y))

theorem mem_le_foldl_max (l : List Nat) : ∀ a x, x ∈ l → x ≤ l.foldl max a := by
  induction l with
  | nil => intro a x hx; simp at hx
  | cons y ys ih =>
    intro a x hx
    rcases List.mem_cons.mp hx with rfl | hx
    · exact le_trans (Nat.le_max_right a x) (le_foldl_max ys (max a x))
    · exact ih (max a y) x hx

theorem foldl_max_le (l : List Nat) : ∀ a b, a ≤ b → (∀ x ∈ l, x ≤ b) → l.foldl max a ≤ b := by
  induction l with
  | nil => intro a b hab _; exact hab
  | cons y ys ih =>
    intro a b hab h
    exact ih (max a y) b (Nat.max_le.mpr ⟨hab, h y (List.mem_cons_self y ys)⟩)
      fun x hx => h x (List.mem_cons_of_mem y hx)

theorem le_listMax (l : List Nat) (x : Nat) (hx : x ∈ l) : x ≤ listMax l :=
  mem_le_foldl_max l 0 x hx

theorem listMax_le (l : List Nat) (b : Nat) (h : ∀ x ∈ l, x ≤ b) : listMax l ≤ b :=
  foldl_max_le l 0 b (Nat.zero_le b) h

theorem mem_winList_of_window {s l : List Char} (h : s <:+: l) : s ∈ winList s.length l := by
  obtain ⟨t1, t2, heq⟩ := h
  subst heq
  unfold winList
  apply List.mem_map.mpr
  refine ⟨t1.length, List.mem_range.mpr ?_, ?_⟩
  · simp only [List.length_append]
    omega
  · rw [List.append_assoc, List.drop_left, List.take_left]

theorem partScore_eq_100_of_contained {s l : List Char} (h : s <:+: l) : partScore s l = 100 := by
  have hlen : s.length ≤ l.length := h.length_le
  simp only [partScore, if_pos hlen]
  apply Nat.le_antisymm
  · apply listMax_le
    intro x hx
    obtain ⟨w, _, rfl⟩ := List.mem_map.mp hx
    exact simPct_le_100 s w
  · calc (100 : Nat) = simPct s s := (simPct_self s).symm
      _ ≤ _ := le_listMax _ _ (List.mem_map_of_mem (simPct s) (mem_winList_of_window h))

theorem semanticScore_ge {ql : List Char} (r : FileRecord)
    (h : ql <:+: lowList r.content.data) : 400 ≤ semanticScore ql r := by
  unfold semanticScore
  have h4 : partScore ql (lowList r.content.data) = 100 := partScore_eq_100_of_contained h
  rw [h4]
  omega

/-- Claim C1, as stated, is false: in the two-file index `c1Idx` the query
"foo" equals the name of a function defined in `a.js` and appearing verbatim
only there (first two conjuncts), no other file declares a symbol named
"foo" (third conjunct), yet semantic search ranks `b.js` first (last
conjunct): near-miss symbol and content scores in `b.js` outweigh the exact
match. -/
theorem c1_top1_counterexample :
    (∀ r ∈ c1Idx, (hasSub ("foo".data) (lowList r.content.data) = true ↔ r.path = "a.js")) ∧
    ("foo" ∈ c1RecA.symbols.functions.map symName ∧ c1RecA.path = "a.js") ∧
    (∀ r ∈ c1Idx, r.path ≠ "a.js" → "foo" ∉ (allSymbols r.symbols).map symName) ∧
    semanticSearch "foo" c1Idx = ["b.js", "a.js"] := by decide

/-- Claim C1 (amended): for every built index and every query, an indexed
file whose lower-cased content contains the lower-cased query verbatim — in
particular the unique file containing a queried function name — always
appears in the semantic search results (its content axis alone scores
40 × 10 > 300), though not necessarily ranked first. -/
theorem c1_verbatim_in_results (q : String) (idx : List FileRecord) (r : FileRecord)
    (hr : r ∈ idx) (hsub : lowList q.data <:+: lowList r.content.data) :
    r.path ∈ semanticSearch q idx := by
  unfold semanticSearch semanticSurvivors semanticScored
  apply List.mem_map.mpr
  refine ⟨(r.path, semanticScore (lowList q.data) r), ?_, rfl⟩
  apply List.mem_filter.mpr
  refine ⟨(mem_stableSort _).mpr
    (List.mem_map_of_mem (fun r => (r.path, semanticScore (lowList q.data) r)) hr), ?_⟩
  show Nat.blt 300 (semanticScore (lowList q.data) r) = true
  rw [Nat.blt_eq]
  have := semanticScore_ge r hsub
  omega

/-- Witness for C1: the record of `a.js` holds the query verbatim and is in
the results. -/
theorem c1_witness : c1RecA.path ∈ semanticSearch "foo" c1Idx :=
  c1_verbatim_in_results "foo" c1Idx c1RecA (by decide) (by decide)

/-- Claim C2 (amended): semantic search never returns a file whose weighted
score is at or below the threshold (30, scaled to 300 here); the returned
files are ordered by non-increasing — descending but not necessarily
strictly descending — score, and the path list is exactly the scored
survivor list. -/
theorem c2_threshold_and_order (q : String) (idx : List FileRecord) :
    (∀ x ∈ semanticSurvivors q idx, 300 < x.2) ∧
    (semanticSurvivors q idx).Pairwise (fun a b => b.2 ≤ a.2) ∧
    semanticSearch q idx = (semanticSurvivors q idx).map (·.1) := by
  refine ⟨?_, ?_, rfl⟩
  · intro x hx
    have h := (List.mem_filter.mp hx).2
    rw [Nat.blt_eq] at h
    exact h
  · apply List.Pairwise.sublist (List.filter_sublist _)
    unfold semanticScored
    refine List.Pairwise.imp ?_
      (pairwise_stableSort (fun (a b : String × Nat) => Nat.ble b.2 a.2) ?_ ?_ _)
    · intro a b h
      rw [Nat.ble_eq] at h
      exact h
    · intro a b c h1 h2
      rw [Nat.ble_eq] at h1 h2 ⊢
      omega
    · intro a b
      rcases Nat.le_total b.2 a.2 with h | h
      · left; rw [Nat.ble_eq]; exact h
      · right; rw [Nat.ble_eq]; exact h

/-- Witness for C2 at a concrete index. -/
theorem c2_witness :
    300 < (550 : Nat) ∧
    semanticSearch "getx" c2Idx = (semanticSurvivors "getx" c2Idx).map (·.1) :=
  ⟨(c2_threshold_and_order "getx" c2Idx).1 ("a/x.hs", 550) (by decide),
   (c2_threshold_and_order "getx" c2Idx).2.2⟩

/-- Counterexample for C2's "strictly descending" wording: two files with
identical content and base name tie at 550, so the returned order is not
strictly descending (both scores exceed the threshold, so both are
returned). -/
theorem c2_strict_order_counterexample :
    semanticSurvivors "getx" c2Idx = [("a/x.hs", 550), ("b/x.hs", 550)] ∧
    ¬ (semanticSurvivors "getx" c2Idx).Pairwise (fun a b => a.2 > b.2) ∧
    semanticSearch "getx" c2Idx = ["a/x.hs", "b/x.hs"] := by decide

/-- Claim C3: a query containing a path separator or the words
"directory"/"folder" dispatches to directory mode, and directory mode
returns exactly the indexed paths that case-insensitively contain the query,
sorted lexicographically. -/
theorem c3_directory_mode (q : String) (idx : List FileRecord)
    (h : isDirQuery q = true) :
    relevantFilesFor q idx = directorySearch q idx ∧
    (∀ p : String, p ∈ directorySearch q idx ↔
      p ∈ idx.map (·.path) ∧ hasSub (lowList q.data) (lowList p.data) = true) ∧
    (directorySearch q idx).Pairwise fun a b => lexLe a.data b.data = true := by
  refine ⟨?_, ?_, ?_⟩
  · unfold relevantFilesFor
    rw [if_pos h]
  · intro p
    unfold directorySearch
    rw [mem_stableSort, List.mem_filter]
  · unfold directorySearch
    exact pairwise_stableSort (fun a b : String => lexLe a.data b.data)
      (fun a b c h1 h2 => lexLe_trans a.data b.data c.data h1 h2)
      (fun a b => lexLe_total a.data b.data) _

/-- Witness for C3 at a concrete index and the query "src/". -/
theorem c3_witness :
    isDirQuery "src/" = true ∧
    (relevantFilesFor "src/" c3Idx = directorySearch "src/" c3Idx ∧
      (∀ p : String, p ∈ directorySearch "src/" c3Idx ↔
        p ∈ c3Idx.map (·.path) ∧ hasSub (lowList "src/".data) (lowList p.data) = true) ∧
      (directorySearch "src/" c3Idx).Pairwise fun a b => lexLe a.data b.data = true) :=
  ⟨by decide, c3_directory_mode "src/" c3Idx (by decide)⟩

theorem walkF_no_excluded :
    ∀ (fuel : Nat) (acc : List String) (es : List FsEntry) (p : List String × String),
      p ∈ walkF fuel acc es →
      ∃ extra, p.1 = acc ++ extra ∧ ∀ d ∈ extra, isExcludedDir d = false := by
  intro fuel
  induction fuel with
  | zero => intro acc es p hp; simp [walkF] at hp
  | succ f ih =>
    intro acc es p hp
    cases es with
    | nil => simp [walkF] at hp
    | cons e rest =>
      cases e with
      | file n =>
        simp only [walkF] at hp
        rcases List.mem_append.mp hp with h | h
        · by_cases hc : pathSuffix n ∈ codeExtensionsCb
          · rw [if_pos hc] at h
            simp only [List.mem_singleton] at h
            subst h
            exact ⟨[], by simp, by simp⟩
          · rw [if_neg hc] at h
            simp at h
        · exact ih acc rest p h
      | dir n cs =>
        simp only [walkF] at hp
        rcases List.mem_append.mp hp with h | h
        · cases hb : isExcludedDir n with
          | true => rw [if_pos hb] at h; simp at h
          | false =>
            rw [if_neg (by simp [hb])] at h
            obtain ⟨extra, he1, he2⟩ := ih (acc ++ [n]) cs p h
            refine ⟨n :: extra, by simp [he1], ?_⟩
            intro d hd
            rcases List.mem_cons.mp hd with rfl | hd
            · exact hb
            · exact he2 d hd
        · exact ih acc rest p h

theorem indexFileRecord_path {parse : String → Option (List PyNode)} {p c : String}
    {r : FileRecord} (h : indexFileRecord parse p c = some r) : r.path = p := by
  unfold indexFileRecord at h
  cases hcm : extractCommentsCb (detectLanguage p) c.data with
  | none => rw [hcm] at h; simp at h
  | some cm =>
    rw [hcm] at h
    simp only [Option.map_some'] at h
    obtain rfl := Option.some.inj h
    rfl

theorem splitOnChar_cons (sep c : Char) (cs : List Char) :
    splitOnChar sep (c :: cs) =
      match splitOnChar sep cs with
      | [] => [[]]
      | r :: rs => if c == sep then [] :: r :: rs else (c :: r) :: rs := rfl

theorem splitOnChar_ne_nil (sep : Char) (cs : List Char) : splitOnChar sep cs ≠ [] := by
  cases cs with
  | nil => simp [splitOnChar]
  | cons c cs =>
    rw [splitOnChar_cons]
    cases h : splitOnChar sep cs with
    | nil => simp
    | cons r rs =>
      dsimp only
      split <;> simp

theorem splitOnChar_no_sep {sep : Char} {cs : List Char} (h : sep ∉ cs) :
    splitOnChar sep cs = [cs] := by
  induction cs with
  | nil => rfl
  | cons c cs ih =>
    have hcs : sep ∉ cs := fun hm => h (List.mem_cons_of_mem _ hm)
    have hc : (c == sep) = false :=
      beq_eq_false_iff_ne.mpr fun e => h (e ▸ List.mem_cons_self c cs)
    rw [splitOnChar_cons, ih hcs]
    simp [hc]

theorem splitOnChar_append_sep {sep : Char} {p : List Char} (hp : sep ∉ p)
    (rest : List Char) :
    splitOnChar sep (p ++ sep :: rest) = p :: splitOnChar sep rest := by
  induction p with
  | nil =>
    rw [List.nil_append, splitOnChar_cons]
    cases h : splitOnChar sep rest with
    | nil => exact absurd h (splitOnChar_ne_nil sep rest)
    | cons r rs => simp
  | cons c p ih =>
    have hcp : sep ∉ p := fun hm => hp (List.mem_cons_of_mem _ hm)
    have hc : (c == sep) = false :=
      beq_eq_false_iff_ne.mpr fun e => hp (e ▸ List.mem_cons_self c p)
    rw [List.cons_append, splitOnChar_cons, ih hcp]
    simp [hc]

theorem splitOnChar_joinParts :
    ∀ (parts : List (List Char)), parts ≠ [] → (∀ p ∈ parts, '/' ∉ p) →
      splitOnChar '/' (joinParts parts) = parts := by
  intro parts
  induction parts with
  | nil => intro h; exact absurd rfl h
  | cons p ps ih =>
    intro _ hok
    cases ps with
    | nil =>
      simp only [joinParts]
      exact splitOnChar_no_sep (hok p (List.mem_cons_self _ _))
    | cons q qs =>
      simp only [joinParts]
      rw [splitOnChar_append_sep (hok p (List.mem_cons_self _ _))]
      rw [ih (by simp) fun x hx => hok x (List.mem_cons_of_mem _ hx)]

theorem pathParts_joinPath (dirs : List String) (fname : String)
    (hd : ∀ d ∈ dirs, '/' ∉ d.data) (hf : '/' ∉ fname.data) :
    pathParts (joinPath dirs fname) = dirs ++ [fname] := by
  unfold pathParts joinPath
  have hdata : ((joinParts ((dirs ++ [fname]).map fun s => s.data)).asString).data
      = joinParts ((dirs ++ [fname]).map fun s => s.data) := rfl
  rw [hdata]
  rw [splitOnChar_joinParts _ (by simp) ?hok]
  case hok =>
    intro p hp
    obtain ⟨s, hs, rfl⟩ := List.mem_map.mp hp
    rcases List.mem_append.mp hs with hs | hs
    · exact hd s hs
    · obtain rfl := List.mem_singleton.mp hs
      exact hf
  rw [List.map_map]
  rw [show (List.asString ∘ fun s : String => s.data) = id from rfl, List.map_id]

/-- Claim C4: for every tree (and any walk fuel, parser and file reader)
whose entry names contain no path separator — true of every real directory
tree, since `os.walk` names never contain `/` — every record `buildIndex`
creates lies at a path none of whose proper `/`-components is an excluded
directory name: excluded directories are pruned before descending, so no
file beneath one is ever indexed. -/
theorem c4_excluded_dirs_pruned (parse : String → Option (List PyNode)) (fuel : Nat)
    (tree : List FsEntry) (fs : String → Option String) (r : FileRecord)
    (hnames : ∀ df ∈ walkF fuel ([] : List String) tree,
      (∀ d ∈ df.1, '/' ∉ d.data) ∧ '/' ∉ df.2.data)
    (hr : r ∈ buildIndex parse fuel tree fs) :
    ∀ d ∈ (pathParts r.path).dropLast, isExcludedDir d = false := by
  unfold buildIndex buildIndexFromFiles at hr
  obtain ⟨pc, hpc, hrec⟩ := List.mem_filterMap.mp hr
  obtain ⟨df, hdf, hpc'⟩ := List.mem_filterMap.mp hpc
  cases hfs : fs (joinPath df.1 df.2) with
  | none => rw [hfs] at hpc'; simp at hpc'
  | some c =>
    rw [hfs] at hpc'
    simp only [Option.map_some'] at hpc'
    obtain rfl := Option.some.inj hpc'
    have hpath : r.path = joinPath df.1 df.2 := indexFileRecord_path hrec
    obtain ⟨hdirs, hfname⟩ := hnames df hdf
    rw [hpath, pathParts_joinPath df.1 df.2 hdirs hfname, List.dropLast_concat]
    obtain ⟨extra, he1, he2⟩ := walkF_no_excluded fuel [] tree df hdf
    intro d hd
    apply he2
    rw [List.nil_append] at he1
    rwa [← he1]

/-- Witness for C4: in `c4Tree` only `src/a.py` is indexed (the file beneath
`node_modules` is pruned), and its single proper path component `src` is
unexcluded. -/
theorem c4_witness :
    c4Idx.map (·.path) = ["src/a.py"] ∧
    (∀ d ∈ (pathParts (c4Idx.headD dummyRecord).path).dropLast, isExcludedDir d = false) :=
  ⟨by decide,
   c4_excluded_dirs_pruned (fun _ => none) 10 c4Tree c4Fs (c4Idx.headD dummyRecord)
     (by decide) (by decide)⟩

/-- Claim C5: a Python file whose content the structural extractor fails to
parse is still indexed (the build completes; the record is present with the
file's content) and its symbol table has all four lists empty. -/
theorem c5_parse_failure_empty_symbols (parse : String → Option (List PyNode))
    (files : List (String × String)) (p c : String) (hpc : (p, c) ∈ files)
    (hlang : detectLanguage p = "python") (hfail : parse c = none) :
    ∃ r ∈ buildIndexFromFiles parse files,
      r.path = p ∧ r.content = c ∧ r.symbols = emptySymbolTable := by
  have hsym : extractSymbolsCb parse c p = emptySymbolTable := by
    unfold extractSymbolsCb
    rw [hlang]
    simp only [beq_self_eq_true, if_true]
    unfold extractPySymbolsCb
    rw [hfail]
  refine ⟨{ path := p, content := c, size := c.data.length,
            language := detectLanguage p,
            symbols := extractSymbolsCb parse c p,
            comments := pyComments c.data }, ?_, rfl, rfl, hsym⟩
  apply List.mem_filterMap.mpr
  refine ⟨(p, c), hpc, ?_⟩
  unfold indexFileRecord
  rw [hlang]
  unfold extractCommentsCb
  simp only [beq_self_eq_true, if_true, Option.map_some']

/-- Witness for C5: an unparseable Python file is indexed with an empty
symbol table. -/
theorem c5_witness :
    ∃ r ∈ buildIndexFromFiles (fun _ => none) [("x.py", "def broken(:")],
      r.path = "x.py" ∧ r.content = "def broken(:" ∧ r.symbols = emptySymbolTable :=
  c5_parse_failure_empty_symbols (fun _ => none) _ "x.py" "def broken(:"
    (by decide) (by decide) rfl

/-- Claim C6 fails on the code: indexing `a.py` (content "foo foo") appends
the path once per occurrence of the keyword "foo"; `remove_file` removes only
the first occurrence (`list.remove`), so after removal the keyword index
still maps "foo" to the removed path even though its record is gone. -/
theorem c6_remove_leaves_stale_keyword :
    alGet? "foo" c6St.keywords = some ["a.py", "a.py"] ∧
    alGet? "foo" (sRemoveFile c6St "a.py").keywords = some ["a.py"] ∧
    alGet? "a.py" (sRemoveFile c6St "a.py").index = none ∧
    alGet? "a.py" (sRemoveFile c6St "a.py").fileContents = none ∧
    alGet? "a.py" (sRemoveFile c6St "a.py").symbols = none := by decide

/-- Claim C7 fails on the code: `update_file("src/a.q", "v1")` ignores the
supplied content and re-reads the disk, and files the re-indexed record
under the base name `a.q` (the path relative to its own parent), so the
record under the key `src/a.q` is unchanged ("v0", not "v1") and a second
entry appears under `a.q`. -/
theorem c7_update_leaves_stale_record :
    (alGet? "src/a.q" (sUpdateFile c7Fs c7St "src/a.q" "v1").index).map (·.content)
      = some "v0" ∧
    (alGet? "a.q" (sUpdateFile c7Fs c7St "src/a.q" "v1").index).map (·.content)
      = some "v0" ∧
    ("v0" : String) ≠ "v1" := by decide

theorem indentFold_eq (lines : List (List Char)) (acc : Nat × Nat) :
    lines.foldl
      (fun acc line =>
        if leadMatch [' '] line then (acc.1 + 1, acc.2)
        else if leadMatch [Char.ofNat 9] line then (acc.1, acc.2 + 1)
        else acc)
      acc
    = (acc.1 + lines.countP (leadMatch [' ']),
       acc.2 + lines.countP (leadMatch [Char.ofNat 9])) := by
  induction lines generalizing acc with
  | nil => simp
  | cons l ls ih =>
    simp only [List.foldl_cons, List.countP_cons]
    by_cases h1 : leadMatch [' '] l = true
    · have h2 : leadMatch [Char.ofNat 9] l = false := by
        cases l with
        | nil => rfl
        | cons c cs =>
          have hc : (' ' == c) = true := by
            cases hb : (' ' == c)
            · exfalso
              simp only [leadMatch, hb, Bool.false_and] at h1
              exact Bool.false_ne_true h1
            · rfl
          obtain rfl : c = ' ' := (beq_iff_eq.mp hc).symm
          rfl
      have e1 : (if leadMatch [' '] l = true then (1 : Nat) else 0) = 1 := if_pos h1
      have e2 : (if leadMatch [Char.ofNat 9] l = true then (1 : Nat) else 0) = 0 :=
        if_neg (by simp [h2])
      rw [if_pos h1, ih, e1, e2, Prod.ext_iff]
      constructor <;> · dsimp only; omega
    · have e1 : (if leadMatch [' '] l = true then (1 : Nat) else 0) = 0 := if_neg h1
      by_cases h2 : leadMatch [Char.ofNat 9] l = true
      · have e2 : (if leadMatch [Char.ofNat 9] l = true then (1 : Nat) else 0) = 1 := if_pos h2
        rw [if_neg h1, if_pos h2, ih, e1, e2, Prod.ext_iff]
        constructor <;> · dsimp only; omega
      · have e2 : (if leadMatch [Char.ofNat 9] l = true then (1 : Nat) else 0) = 0 := if_neg h2
        rw [if_neg h1, if_neg h2, ih, e1, e2, Prod.ext_iff]
        constructor <;> · dsimp only; omega

theorem indentCounts_eq (idx : List FileRecord) :
    indentCounts idx = (spaceLineCount idx, tabLineCount idx) := by
  unfold indentCounts spaceLineCount tabLineCount
  have aux : ∀ (rs : List FileRecord) (acc : Nat × Nat),
      rs.foldl
        (fun acc r =>
          (splitOnChar (Char.ofNat 10) r.content.data).foldl
            (fun acc line =>
              if leadMatch [' '] line then (acc.1 + 1, acc.2)
              else if leadMatch [Char.ofNat 9] line then (acc.1, acc.2 + 1)
              else acc)
            acc)
        acc
      = (acc.1 + ((rs.map fun r => splitOnChar (Char.ofNat 10) r.content.data).flatten).countP
            (leadMatch [' ']),
         acc.2 + ((rs.map fun r => splitOnChar (Char.ofNat 10) r.content.data).flatten).countP
            (leadMatch [Char.ofNat 9])) := by
    intro rs
    induction rs with
    | nil => intro acc; simp
    | cons r rs ih =>
      intro acc
      simp only [List.foldl_cons, List.map_cons, List.flatten_cons, List.countP_append]
      rw [indentFold_eq, ih]
      dsimp only
      simp only [Prod.mk.injEq]
      constructor <;> omega
  rw [aux]
  simp

/-- Claim C8 (amended): indentation detection reports "spaces" exactly when
strictly more lines start with a space than with a tab, and "tabs" both when
strictly more start with a tab and when the two counts are equal (the tie
goes to "tabs", not "spaces"). -/
theorem c8_indentation_rule (idx : List FileRecord) :
    (tabLineCount idx < spaceLineCount idx → detectIndentationStyle idx = "spaces") ∧
    (spaceLineCount idx < tabLineCount idx → detectIndentationStyle idx = "tabs") ∧
    (spaceLineCount idx = tabLineCount idx → detectIndentationStyle idx = "tabs") := by
  unfold detectIndentationStyle
  rw [indentCounts_eq]
  refine ⟨fun h => ?_, fun h => ?_, fun h => ?_⟩
  · rw [if_pos h]
  · rw [if_neg (by omega)]
  · rw [if_neg (by omega)]

/-- Witness for C8 at three concrete indexes (space majority, tab majority,
tie). -/
theorem c8_witness :
    detectIndentationStyle c8SpIdx = "spaces" ∧
    detectIndentationStyle c8TbIdx = "tabs" ∧
    detectIndentationStyle c8Idx = "tabs" :=
  ⟨(c8_indentation_rule c8SpIdx).1 (by decide),
   (c8_indentation_rule c8TbIdx).2.1 (by decide),
   (c8_indentation_rule c8Idx).2.2 (by decide)⟩

/-- Counterexample for C8's tie clause: with one space-led and one tab-led
line the counts are equal, and the code reports "tabs", not the claimed
"spaces". -/
theorem c8_tie_counterexample :
    spaceLineCount c8Idx = 1 ∧ tabLineCount c8Idx = 1 ∧
    detectIndentationStyle c8Idx = "tabs" := by decide

theorem kwAppend_min3 {kws : List (String × List String)}
    (hk : ∀ e ∈ kws, 3 ≤ e.1.length) {k p : String} (h3 : 3 ≤ k.length) :
    ∀ e ∈ kwAppend k p kws, 3 ≤ e.1.length := by
  induction kws with
  | nil =>
    intro e he
    simp only [kwAppend, List.mem_singleton] at he
    subst he
    exact h3
  | cons kv rest ih =>
    intro e he
    obtain ⟨k', ps⟩ := kv
    simp only [kwAppend] at he
    split at he
    case isTrue hkk =>
      rcases List.mem_cons.mp he with rfl | he
      · exact hk (k', ps) (List.mem_cons_self _ _)
      · exact hk e (List.mem_cons_of_mem _ he)
    case isFalse hkk =>
      rcases List.mem_cons.mp he with rfl | he
      · exact hk (k', ps) (List.mem_cons_self _ _)
      · exact ih (fun e' he' => hk e' (List.mem_cons_of_mem _ he')) e he

theorem indexKeywords_min3 {c p : String} {kws : List (String × List String)}
    (hk : ∀ e ∈ kws, 3 ≤ e.1.length) :
    ∀ e ∈ indexKeywords c p kws, 3 ≤ e.1.length := by
  unfold indexKeywords
  have aux : ∀ (ws : List (List Char)) (kws : List (String × List String)),
      (∀ e ∈ kws, 3 ≤ e.1.length) →
      ∀ e ∈ ws.foldl
        (fun kws w => if 2 < w.length then kwAppend (lowList w).asString p kws else kws)
        kws, 3 ≤ e.1.length := by
    intro ws
    induction ws with
    | nil => intro kws hk e he; exact hk e he
    | cons w ws ih =>
      intro kws hk e he
      simp only [List.foldl_cons] at he
      by_cases hw : 2 < w.length
      · rw [if_pos hw] at he
        refine ih _ (kwAppend_min3 hk ?_) e he
        rw [List.length_asString]
        unfold lowList
        rw [List.length_map]
        omega
      · rw [if_neg hw] at he
        exact ih _ hk e he
  exact aux (identWords c.data) kws hk

theorem buildSState_kw_min3 (files : List (String × String)) :
    ∀ e ∈ (buildSState files).keywords, 3 ≤ e.1.length := by
  unfold buildSState
  have aux : ∀ (fs : List (String × String)) (st : SState),
      (∀ e ∈ st.keywords, 3 ≤ e.1.length) →
      ∀ e ∈ (fs.foldl (fun st pc => sIndexFile st pc.1 pc.2) st).keywords, 3 ≤ e.1.length := by
    intro fs
    induction fs with
    | nil => intro st hst e he; exact hst e he
    | cons pc fs ih =>
      intro st hst e he
      simp only [List.foldl_cons] at he
      exact ih _ (indexKeywords_min3 hst) e he
  exact aux files emptySState (by intro e he; simp [emptySState] at he)

theorem alGet?_none_of_min3 {kws : List (String × List String)}
    (hk : ∀ e ∈ kws, 3 ≤ e.1.length) {w : String} (hw : w.length < 3) :
    alGet? w kws = none := by
  unfold alGet?
  cases hf : List.find? (fun e => e.1 == w) kws with
  | none => rfl
  | some e =>
    exfalso
    have he := List.mem_of_find?_eq_some hf
    have hp := List.find?_some hf
    rw [beq_iff_eq] at hp
    have := hk e he
    rw [hp] at this
    omega

/-- Claim C10: every key of the keyword inverted index built by indexing any
file set has length at least three, so a query word of one or two characters
is never a key and the flat +10 exact-match bonus of the full-text search is
never triggered by such a word. -/
theorem c10_keyword_min_length (files : List (String × String)) :
    (∀ e ∈ (buildSState files).keywords, 3 ≤ e.1.length) ∧
    (∀ w : String, w.length < 3 → alGet? w (buildSState files).keywords = none) ∧
    (∀ (fp : String) (qws : List String), (∀ w ∈ qws, w.length < 3) →
      keywordBonus (buildSState files) fp qws = 0) := by
  refine ⟨buildSState_kw_min3 files, ?_, ?_⟩
  · intro w hw
    exact alGet?_none_of_min3 (buildSState_kw_min3 files) hw
  · intro fp qws hqws
    unfold keywordBonus
    have aux : ∀ (ws : List String), (∀ w ∈ ws, w.length < 3) → ∀ acc : Nat,
        ws.foldl
          (fun acc w =>
            match alGet? w (buildSState files).keywords with
            | some fls => if fp ∈ fls then acc + 10 else acc
            | none => acc)
          acc = acc := by
      intro ws
      induction ws with
      | nil => intro _ acc; rfl
      | cons w ws ih =>
        intro hws acc
        simp only [List.foldl_cons]
        rw [alGet?_none_of_min3 (buildSState_kw_min3 files) (hws w (List.mem_cons_self _ _))]
        exact ih (fun w' hw' => hws w' (List.mem_cons_of_mem _ hw')) acc
    exact aux qws hqws 0

/-- Witness for C10: the two-character words "py"/"js" and "xy" are not keys
and earn no bonus. -/
theorem c10_witness :
    alGet? "py" (buildSState c10Files).keywords = none ∧
    keywordBonus (buildSState c10Files) "a.py" ["py", "js", "xy"] = 0 :=
  ⟨(c10_keyword_min_length c10Files).2.1 "py" (by decide),
   (c10_keyword_min_length c10Files).2.2 "a.py" ["py", "js", "xy"] (by decide)⟩

theorem lowChar_word {c : Char} (h : isLowerAlpha (lowChar c) = true) :
    isWordChar c = true := by
  unfold lowChar at h
  split at h
  case isTrue hc =>
    obtain ⟨hc1, hc2⟩ := hc
    unfold isWordChar
    simp only [Bool.or_eq_true, Bool.and_eq_true, Nat.ble_eq, beq_iff_eq]
    omega
  case isFalse hc =>
    unfold isLowerAlpha at h
    simp only [Bool.and_eq_true, Nat.ble_eq] at h
    obtain ⟨h1, h2⟩ := h
    unfold isWordChar
    simp only [Bool.or_eq_true, Bool.and_eq_true, Nat.ble_eq, beq_iff_eq]
    omega

theorem decisionToks_facts : ∀ t ∈ decisionToks, 1 ≤ t.length ∧ t.all isLowerAlpha = true := by
  decide

theorem matchesTokAt_parts {tok cs : List Char} {i : Nat}
    (h : matchesTokAt tok cs i = true) :
    lowList (sliceAt cs i tok.length) = tok ∧
    ((chAt cs (i + tok.length)).elim true fun c => !isWordChar c) = true := by
  simp only [matchesTokAt, Bool.and_eq_true, beq_iff_eq] at h
  exact ⟨h.1.1, h.2⟩

theorem matchesTokAt_unique_le {cs : List Char} {i : Nat} {t1 t2 : List Char}
    (ht2len : 1 ≤ t2.length) (ht2low : t2.all isLowerAlpha = true)
    (hle : t1.length ≤ t2.length)
    (h1 : matchesTokAt t1 cs i = true) (h2 : matchesTokAt t2 cs i = true) :
    t1 = t2 := by
  obtain ⟨h1s, h1r⟩ := matchesTokAt_parts h1
  obtain ⟨h2s, _⟩ := matchesTokAt_parts h2
  rcases Nat.eq_or_lt_of_le hle with heq | hlt
  · have h1s' := h1s
    rw [heq] at h1s'
    rw [← h1s']
    exact h2s
  · exfalso
    have hlen2 : (sliceAt cs i t2.length).length = t2.length := by
      have hc := congrArg List.length h2s
      simpa [lowList] using hc
    have hbound : i + t2.length ≤ cs.length := by
      unfold sliceAt at hlen2
      rw [List.length_take, List.length_drop] at hlen2
      omega
    have hj : i + t1.length < cs.length := by omega
    cases hcx : cs[i + t1.length]? with
    | none =>
      rw [List.getElem?_eq_none_iff] at hcx
      omega
    | some x =>
      have hr : isWordChar x = false := by
        unfold chAt at h1r
        rw [List.head?_drop, hcx] at h1r
        simp only [Option.elim] at h1r
        cases hw : isWordChar x with
        | false => rfl
        | true => rw [hw] at h1r; exact absurd h1r (by decide)
      have ht2k : t2[t1.length]? = some (lowChar x) := by
        rw [← h2s]
        unfold lowList sliceAt
        rw [List.getElem?_map, List.getElem?_take, if_pos hlt, List.getElem?_drop, hcx]
        rfl
      obtain ⟨hk, hyk⟩ := List.getElem?_eq_some_iff.mp ht2k
      have hmem : t2[t1.length] ∈ t2 := List.getElem_mem hk
      have hlow : isLowerAlpha t2[t1.length] = true := List.all_eq_true.mp ht2low _ hmem
      rw [hyk] at hlow
      have hwc := lowChar_word hlow
      rw [hr] at hwc
      exact Bool.false_ne_true hwc

theorem matchesTokAt_unique {cs : List Char} {i : Nat} {t1 t2 : List Char}
    (h1m : t1 ∈ decisionToks) (h2m : t2 ∈ decisionToks)
    (h1 : matchesTokAt t1 cs i = true) (h2 : matchesTokAt t2 cs i = true) :
    t1 = t2 := by
  rcases Nat.le_total t1.length t2.length with hle | hle
  · exact matchesTokAt_unique_le (decisionToks_facts t2 h2m).1
      (decisionToks_facts t2 h2m).2 hle h1 h2
  · exact (matchesTokAt_unique_le (decisionToks_facts t1 h1m).1
      (decisionToks_facts t1 h1m).2 hle h2 h1).symm

theorem sum_map_ite_countP (l : List α) (p : α → Bool) :
    (l.map fun x => if p x = true then (1 : Nat) else 0).sum = l.countP p := by
  induction l with
  | nil => rfl
  | cons a l ih =>
    simp only [List.map_cons, List.sum_cons, List.countP_cons, ih]
    omega

theorem sum_map_add_distrib (l : List α) (f g : α → Nat) :
    (l.map fun x => f x + g x).sum = (l.map f).sum + (l.map g).sum := by
  induction l with
  | nil => rfl
  | cons a l ih =>
    simp only [List.map_cons, List.sum_cons, ih]
    omega

theorem countP_toks_at (cs : List Char) (i : Nat) :
    decisionToks.countP (fun t => matchesTokAt t cs i)
      = if decisionToks.any (fun t => matchesTokAt t cs i) then 1 else 0 := by
  by_cases h : decisionToks.any (fun t => matchesTokAt t cs i) = true
  · rw [if_pos h]
    obtain ⟨t0, ht0, hm0⟩ := List.any_eq_true.mp h
    rw [List.countP_eq_length_filter]
    have hmemf : t0 ∈ decisionToks.filter (fun t => matchesTokAt t cs i) :=
      List.mem_filter.mpr ⟨ht0, hm0⟩
    have hall : ∀ x ∈ decisionToks.filter (fun t => matchesTokAt t cs i), x = t0 := by
      intro x hx
      obtain ⟨hx1, hx2⟩ := List.mem_filter.mp hx
      exact matchesTokAt_unique hx1 ht0 hx2 hm0
    have hnd : (decisionToks.filter (fun t => matchesTokAt t cs i)).Nodup :=
      List.Nodup.filter _ (by decide)
    have hrep := List.eq_replicate_of_mem hall
    have hle1 : (decisionToks.filter (fun t => matchesTokAt t cs i)).length ≤ 1 :=
      List.nodup_replicate.mp (hrep ▸ hnd)
    have hge1 : 0 < (decisionToks.filter (fun t => matchesTokAt t cs i)).length :=
      List.length_pos_of_mem hmemf
    omega
  · rw [if_neg h, List.countP_eq_zero]
    intro a ha hpa
    exact h (List.any_eq_true.mpr ⟨a, ha, hpa⟩)

theorem countTok_sum_aux (cs : List Char) (L : List Nat) :
    (decisionToks.map fun t => L.countP (matchesTokAt t cs)).sum
      = L.countP fun i => decisionToks.any fun t => matchesTokAt t cs i := by
  induction L with
  | nil => rfl
  | cons i L ih =>
    simp only [List.countP_cons]
    rw [sum_map_add_distrib decisionToks (fun t => L.countP (matchesTokAt t cs))
      (fun t => if matchesTokAt t cs i = true then 1 else 0)]
    rw [sum_map_ite_countP decisionToks (fun t => matchesTokAt t cs i), countP_toks_at, ih]

theorem cycFold (cs : List Char) (toks : List (List Char)) (a : Nat) :
    toks.foldl (fun acc t => acc + countTok t cs) a
      = a + (toks.map fun t => countTok t cs).sum := by
  induction toks generalizing a with
  | nil => simp
  | cons t ts ih =>
    simp only [List.foldl_cons, List.map_cons, List.sum_cons, ih]
    omega

/-- Claim C9: the reported cyclomatic complexity of any raw text equals 1
plus the number of offsets at which one of the eight decision tokens matches
case-insensitively with word boundaries (the per-token findall counts sum to
the single-pass occurrence count because two distinct word-bounded tokens
cannot match at the same offset); in particular a file with exactly three
`if` and two `for` tokens and no other decision keyword reports 6. -/
theorem c9_cyclomatic_formula :
    (∀ content : String,
      cyclomaticComplexity content = 1 + decisionPointCount content.data) ∧
    cyclomaticComplexity "if a if b if c for d for e" = 6 := by
  constructor
  · intro content
    unfold cyclomaticComplexity
    rw [cycFold content.data decisionToks 1]
    simp only [countTok, decisionPointCount]
    rw [countTok_sum_aux]
  · decide
